import Mathlib

set_option maxRecDepth 100000

/-!
Verification of the ELF LOAD-segment aligner
(src/android/app/align_elf_segments.py, function align_elf_load_segments).

The file is modelled as a list of byte values (List Nat), and the
operation as a pure function from the file bytes and the requested page
size to the success flag together with the final file bytes.  A Python
exception anywhere (short read, struct.error on unpack or pack) is
modelled by returning the failure flag together with the bytes written
so far, exactly as the broad try/except of the source leaves the file.
-/

/-- The 4-byte ELF magic, `b"\x7fELF"` in the source. -/
def elfMagic : List Nat := [0x7f, 0x45, 0x4c, 0x46]

/-- `readAt f pos w` models seeking to absolute offset `pos` and reading
`w` bytes.  Python's `f.read` returns fewer bytes at end of file and the
subsequent `struct.unpack` then raises, so the model yields `none`
unless all `w` bytes are available. -/
def readAt (f : List Nat) (pos w : Nat) : Option (List Nat) :=
  if pos + w ≤ f.length then
    some ((List.range w).map fun k => (f.get? (pos + k)).getD 0)
  else none

/-- Value of a little-endian byte string (least significant byte first). -/
def leVal : List Nat → Nat
  | [] => 0
  | b :: bs => b + 256 * leVal bs

/-- `struct.unpack` of an unsigned field with the chosen byte order:
little-endian if `little`, big-endian otherwise. -/
def decodeBytes (little : Bool) (bs : List Nat) : Nat :=
  if little then leVal bs else leVal bs.reverse

/-- Seek to `pos`, read `w` bytes and decode them with the byte order
determined by `little`; `none` models the struct.error on a short read. -/
def decodeAt (f : List Nat) (pos w : Nat) (little : Bool) : Option Nat :=
  (readAt f pos w).map (decodeBytes little)

/-- Little-endian byte string of width `w` for the value `v`. -/
def leBytes : Nat → Nat → List Nat
  | 0, _ => []
  | w + 1, v => v % 256 :: leBytes w (v / 256)

/-- `struct.pack` of an unsigned `w`-byte field.  Python raises
struct.error when the value is negative or does not fit in `w` bytes
(`256 ^ w = 2 ^ (8 * w)`), modelled by `none`. -/
def packInt (little : Bool) (w : Nat) (v : Int) : Option (List Nat) :=
  if 0 ≤ v ∧ v < (256 : Int) ^ w then
    some (if little then leBytes w v.toNat else (leBytes w v.toNat).reverse)
  else none

/-- Seek to `pos` and write the byte string `bs` in place.  A write
past end of file would zero-fill the gap, as Python files do; in every
reachable state of the aligner the write is in bounds. -/
def writeAt (f : List Nat) (pos : Nat) (bs : List Nat) : List Nat :=
  f.take pos ++ List.replicate (pos - f.length) 0 ++ bs ++ f.drop (pos + bs.length)

/-- The format information the source extracts from the ELF header:
byte order, word size, and the program header table descriptor
`e_phoff` / `e_phentsize` / `e_phnum`. -/
structure ElfParams where
  little : Bool
  is64 : Bool
  e_phoff : Nat
  e_phentsize : Nat
  e_phnum : Nat
deriving DecidableEq

/-- Offset of the `p_align` field inside a program header entry:
48 for 64-bit ELF, 28 for 32-bit ELF. -/
def p_align_offset (p : ElfParams) : Nat := if p.is64 then 48 else 28

/-- Width in bytes of the `p_align` field: 8 for 64-bit, 4 for 32-bit. -/
def p_align_size (p : ElfParams) : Nat := if p.is64 then 8 else 4

/-- Absolute file offset of program header entry `i`:
`e_phoff + i * e_phentsize`. -/
def phEntryOff (p : ElfParams) (i : Nat) : Nat := p.e_phoff + i * p.e_phentsize

/-- Extraction of the program header table descriptor, after the class
and data bytes have selected offsets and byte order.  64-bit: `e_phoff`
is 8 bytes at 32, `e_phentsize` 2 bytes at 54, `e_phnum` 2 bytes at 56.
32-bit: 4 bytes at 28, 2 bytes at 42, 2 bytes at 44. -/
def parsePhFields (f : List Nat) (is64 little : Bool) : Option ElfParams :=
  if is64 then
    (decodeAt f 32 8 little).bind fun phoff =>
      (decodeAt f 54 2 little).bind fun entsize =>
        (decodeAt f 56 2 little).map fun num =>
          ⟨little, true, phoff, entsize, num⟩
  else
    (decodeAt f 28 4 little).bind fun phoff =>
      (decodeAt f 42 2 little).bind fun entsize =>
        (decodeAt f 44 2 little).map fun num =>
          ⟨little, false, phoff, entsize, num⟩

/-- Parsing of the ELF header, as the source does it: check the magic,
read `ei_class` at offset 4 (value 2 means 64-bit, anything else is
treated as 32-bit) and `ei_data` at offset 5 (value 1 means
little-endian, anything else big-endian), then extract the table
descriptor.  `none` models any of: magic mismatch, IndexError on a file
shorter than 6 bytes, struct.error on a header slice that is too
short. -/
def parseElfHeader (f : List Nat) : Option ElfParams :=
  if f.take 4 = elfMagic then
    (f.get? 4).bind fun ei_class =>
      (f.get? 5).bind fun ei_data =>
        parsePhFields f (ei_class == 2) (ei_data == 1)
  else none

/-- The per-entry loop of the source: for each index `i` in table
order, read the 4-byte `p_type`; if it equals `PT_LOAD = 1`, read the
current `p_align` and, when it differs from `page_size`, overwrite it.
The result is the success flag together with the final file bytes; a
failed read or pack stops the iteration with the bytes written so
far. -/
def alignLoop (p : ElfParams) (page_size : Int) : Nat → Nat → List Nat → Bool × List Nat
  | _, 0, f => (true, f)
  | i, count + 1, f =>
    match decodeAt f (phEntryOff p i) 4 p.little with
    | none => (false, f)
    | some p_type =>
      if p_type = 1 then
        match decodeAt f (phEntryOff p i + p_align_offset p) (p_align_size p) p.little with
        | none => (false, f)
        | some cur =>
          if (cur : Int) = page_size then alignLoop p page_size (i + 1) count f
          else
            match packInt p.little (p_align_size p) page_size with
            | none => (false, f)
            | some bs =>
              alignLoop p page_size (i + 1) count
                (writeAt f (phEntryOff p i + p_align_offset p) bs)
      else alignLoop p page_size (i + 1) count f

/-- The whole operation `align_elf_load_segments(filepath, page_size)`:
parse the header, then run the per-entry loop over `e_phnum` entries.
Both the "modified" and the "already aligned" outcomes of the source
return `True`; every exception path returns `False` with the file as
the failed run leaves it. -/
def align_elf_load_segments (f : List Nat) (page_size : Int) : Bool × List Nat :=
  match parseElfHeader f with
  | none => (false, f)
  | some p => alignLoop p page_size 0 p.e_phnum f

/-- Byte position `q` lies inside the `p_align` field of a program
header entry of `f` whose `segment_type` (`p_type`) decodes to the
loadable constant 1.  Geometry is taken from the table descriptor
`p`. -/
def loadAlignRegion (f : List Nat) (p : ElfParams) (q : Nat) : Prop :=
  ∃ j, j < p.e_phnum ∧ decodeAt f (phEntryOff p j) 4 p.little = some 1 ∧
    phEntryOff p j + p_align_offset p ≤ q ∧
    q < phEntryOff p j + p_align_offset p + p_align_size p

/-- A file all of whose entries are genuine byte values (below 256).
Any file read from disk satisfies this. -/
def ByteOk (f : List Nat) : Prop := ∀ b ∈ f, b < 256

/-! ### Concrete files used as counterexamples and witnesses

All are accepted by the parser (except the deliberately broken ones)
and were chosen so that the loop's behaviour on them is fully
determined by the definitions above. -/

/-- 64-bit little-endian ELF, `e_phoff = 64`, `e_phentsize = 4` (entries
overlap), `e_phnum = 2`, both entries loadable, both `p_align` fields 0;
the two `p_align` regions 112..120 and 116..124 overlap. -/
def exC1 : List Nat :=
  [0x7f, 0x45, 0x4c, 0x46, 2, 1] ++ List.replicate 26 0 ++ [64, 0, 0, 0, 0, 0, 0, 0] ++
  List.replicate 14 0 ++ [4, 0, 2, 0] ++ List.replicate 6 0 ++
  [1, 0, 0, 0] ++ [1, 0, 0, 0] ++ List.replicate 52 0

/-- Like `exC1` but entry 1 has `p_type = 0`: its `p_align` region
116..124 overlaps the `p_align` region 112..120 of loadable entry 0. -/
def exC2 : List Nat :=
  [0x7f, 0x45, 0x4c, 0x46, 2, 1] ++ List.replicate 26 0 ++ [64, 0, 0, 0, 0, 0, 0, 0] ++
  List.replicate 14 0 ++ [4, 0, 2, 0] ++ List.replicate 6 0 ++
  [1, 0, 0, 0] ++ [0, 0, 0, 0] ++ List.replicate 52 0

/-- 64-bit little-endian ELF with `e_phoff = 6`: the program header
table overlaps the ELF header, so entry 0's `p_align` field (bytes
54..62) covers the header's `e_phentsize` and `e_phnum` fields.
Initially `e_phentsize = 0`, `e_phnum = 1`, entry 0 loadable. -/
def exC4 : List Nat :=
  [0x7f, 0x45, 0x4c, 0x46, 2, 1] ++ [1, 0, 0, 0] ++ List.replicate 22 0 ++
  [6, 0, 0, 0, 0, 0, 0, 0] ++ List.replicate 14 0 ++ [0, 0] ++ [1, 0] ++
  [0, 0, 0, 0] ++ [1, 0, 0, 0] ++ List.replicate 52 0

/-- 64-bit little-endian ELF of 68 bytes with `e_phoff = 64`,
`e_phentsize = 56`, `e_phnum = 1`: the table extends to byte 120, far
past end of file, but the only field ever read (the 4-byte `p_type` at
64, value 0) is in bounds. -/
def exC5 : List Nat :=
  [0x7f, 0x45, 0x4c, 0x46, 2, 1] ++ List.replicate 26 0 ++ [64, 0, 0, 0, 0, 0, 0, 0] ++
  List.replicate 14 0 ++ [56, 0, 1, 0] ++ List.replicate 6 0 ++ [0, 0, 0, 0]

/-- Valid magic but class byte 7 and byte-order byte 9, neither of
which is a recognized marker; all table fields zero. -/
def exC6 : List Nat := [0x7f, 0x45, 0x4c, 0x46, 7, 9] ++ List.replicate 40 0

/-- A 58-byte 64-bit little-endian ELF (shorter than a full 64-byte
header) whose `e_phnum` is 0. -/
def exC7 : List Nat := [0x7f, 0x45, 0x4c, 0x46, 2, 1] ++ List.replicate 52 0

/-- Well-formed 120-byte 64-bit little-endian ELF: one 56-byte entry at
offset 64, loadable, `p_align = 0`. -/
def witC1 : List Nat :=
  [0x7f, 0x45, 0x4c, 0x46, 2, 1] ++ List.replicate 26 0 ++ [64, 0, 0, 0, 0, 0, 0, 0] ++
  List.replicate 14 0 ++ [56, 0, 1, 0] ++ List.replicate 6 0 ++
  [1, 0, 0, 0] ++ List.replicate 44 0 ++ List.replicate 8 0

/-- Well-formed 96-byte 32-bit big-endian ELF: one 32-byte entry at
offset 64, loadable, `p_align = 0`. -/
def witC2 : List Nat :=
  [0x7f, 0x45, 0x4c, 0x46, 1, 2] ++ List.replicate 22 0 ++ [0, 0, 0, 64] ++
  List.replicate 10 0 ++ [0, 32, 0, 1] ++ List.replicate 18 0 ++
  [0, 0, 0, 1] ++ List.replicate 24 0 ++ [0, 0, 0, 0]

/-- Three bytes that are not an ELF magic. -/
def witC3 : List Nat := [1, 2, 3]

/-- Like `witC1` but with `p_align = 4096` initially. -/
def witC4 : List Nat :=
  [0x7f, 0x45, 0x4c, 0x46, 2, 1] ++ List.replicate 26 0 ++ [64, 0, 0, 0, 0, 0, 0, 0] ++
  List.replicate 14 0 ++ [56, 0, 1, 0] ++ List.replicate 6 0 ++
  [1, 0, 0, 0] ++ List.replicate 44 0 ++ [0, 16, 0, 0, 0, 0, 0, 0]

/-- A 64-byte 64-bit little-endian ELF header announcing one entry at
offset 64 with no bytes behind it: even the entry's `p_type` is past
end of file. -/
def witC5 : List Nat :=
  [0x7f, 0x45, 0x4c, 0x46, 2, 1] ++ List.replicate 26 0 ++ [64, 0, 0, 0, 0, 0, 0, 0] ++
  List.replicate 14 0 ++ [56, 0, 1, 0] ++ List.replicate 6 0

/-- Valid magic with class byte 3 and byte-order byte 3. -/
def witC6 : List Nat := [0x7f, 0x45, 0x4c, 0x46, 3, 3] ++ List.replicate 40 0

/-- A 10-byte file. -/
def witC7 : List Nat := [0, 1, 2, 3, 4, 5, 6, 7, 8, 9]

/-- Like `witC1` but with `p_align` already equal to 16384. -/
def witC8 : List Nat :=
  [0x7f, 0x45, 0x4c, 0x46, 2, 1] ++ List.replicate 26 0 ++ [64, 0, 0, 0, 0, 0, 0, 0] ++
  List.replicate 14 0 ++ [56, 0, 1, 0] ++ List.replicate 6 0 ++
  [1, 0, 0, 0] ++ List.replicate 44 0 ++ [0, 64, 0, 0, 0, 0, 0, 0]

/-- Like `witC1` but with `p_align = 7` initially. -/
def witC9 : List Nat :=
  [0x7f, 0x45, 0x4c, 0x46, 2, 1] ++ List.replicate 26 0 ++ [64, 0, 0, 0, 0, 0, 0, 0] ++
  List.replicate 14 0 ++ [56, 0, 1, 0] ++ List.replicate 6 0 ++
  [1, 0, 0, 0] ++ List.replicate 44 0 ++ [7, 0, 0, 0, 0, 0, 0, 0]

/-! ### Basic facts about the byte-level primitives -/

theorem decodeAt_bound {f : List Nat} {pos w : Nat} {little : Bool} {v : Nat}
    (h : decodeAt f pos w little = some v) : pos + w ≤ f.length := by
  by_cases hb : pos + w ≤ f.length
  · exact hb
  · simp [decodeAt, readAt, hb] at h

theorem decodeAt_none {f : List Nat} {pos w : Nat} {little : Bool}
    (h : f.length < pos + w) : decodeAt f pos w little = none := by
  simp [decodeAt, readAt, Nat.not_le.mpr h]

theorem leBytes_length (w v : Nat) : (leBytes w v).length = w := by
  induction w generalizing v with
  | zero => rfl
  | succ w ih => simp [leBytes, ih]

theorem packInt_length {little : Bool} {w : Nat} {v : Int} {bs : List Nat}
    (h : packInt little w v = some bs) : bs.length = w := by
  by_cases hg : 0 ≤ v ∧ v < (256 : Int) ^ w
  · simp only [packInt, if_pos hg, Option.some.injEq] at h
    cases little <;> simp [← h, leBytes_length]
  · simp [packInt, hg] at h

theorem leVal_leBytes (w v : Nat) : leVal (leBytes w v) = v % 256 ^ w := by
  induction w generalizing v with
  | zero => simp [leBytes, leVal, Nat.mod_one]
  | succ w ih =>
    have h256 : (256 : Nat) ^ (w + 1) = 256 * 256 ^ w := by ring
    simp [leBytes, leVal, ih, h256, Nat.mod_mul]

theorem packInt_decode {little : Bool} {w : Nat} {v : Int} {bs : List Nat}
    (h : packInt little w v = some bs) :
    decodeBytes little bs = v.toNat ∧ 0 ≤ v ∧ ((v.toNat : Int) = v) := by
  by_cases hg : 0 ≤ v ∧ v < (256 : Int) ^ w
  · simp only [packInt, if_pos hg, Option.some.injEq] at h
    have hc : v < ((256 ^ w : Nat) : Int) := by exact_mod_cast hg.2
    have hlt : v.toNat < 256 ^ w := by omega
    refine ⟨?_, hg.1, Int.toNat_of_nonneg hg.1⟩
    cases little <;>
      simp [← h, decodeBytes, leVal_leBytes, Nat.mod_eq_of_lt hlt, List.reverse_reverse]
  · simp [packInt, hg] at h

theorem writeAt_length {f bs : List Nat} {pos : Nat} (hin : pos + bs.length ≤ f.length) :
    (writeAt f pos bs).length = f.length := by
  have hp : pos ≤ f.length := by omega
  simp [writeAt, List.length_append, List.length_take, List.length_drop,
    List.length_replicate, Nat.sub_eq_zero_of_le hp]
  omega

theorem writeAt_eq_append {f bs : List Nat} {pos : Nat} (hp : pos ≤ f.length) :
    writeAt f pos bs = f.take pos ++ (bs ++ f.drop (pos + bs.length)) := by
  simp [writeAt, Nat.sub_eq_zero_of_le hp, List.append_assoc]

theorem writeAt_get? {f bs : List Nat} {pos : Nat} (hin : pos + bs.length ≤ f.length)
    (q : Nat) :
    (writeAt f pos bs).get? q =
      if q < pos then f.get? q
      else if q < pos + bs.length then bs.get? (q - pos)
      else f.get? q := by
  have hp : pos ≤ f.length := by omega
  have htl : (f.take pos).length = pos := by
    simp [List.length_take]
    omega
  rw [writeAt_eq_append hp]
  by_cases h1 : q < pos
  · rw [if_pos h1, List.get?_append (by rw [htl]; exact h1), List.get?_take h1]
  · rw [if_neg h1]
    rw [List.get?_append_right (by rw [htl]; exact Nat.le_of_not_lt h1), htl]
    by_cases h2 : q < pos + bs.length
    · rw [if_pos h2, List.get?_append (by omega)]
    · rw [if_neg h2, List.get?_append_right (by omega), List.get?_drop]
      congr 1
      omega

theorem decodeAt_congr {g f : List Nat} {pos w : Nat} (little : Bool)
    (hl : g.length = f.length)
    (hpt : ∀ k, k < w → g.get? (pos + k) = f.get? (pos + k)) :
    decodeAt g pos w little = decodeAt f pos w little := by
  unfold decodeAt readAt
  rw [hl]
  by_cases hb : pos + w ≤ f.length
  · rw [if_pos hb, if_pos hb]
    have : ((List.range w).map fun k => (g.get? (pos + k)).getD 0) =
        (List.range w).map fun k => (f.get? (pos + k)).getD 0 := by
      refine List.map_congr_left fun k hk => ?_
      rw [hpt k (List.mem_range.mp hk)]
    rw [this]
  · rw [if_neg hb, if_neg hb]

theorem decodeAt_writeAt_outside {f bs : List Nat} {pos q w : Nat} (little : Bool)
    (hin : pos + bs.length ≤ f.length)
    (hdisj : q + w ≤ pos ∨ pos + bs.length ≤ q) :
    decodeAt (writeAt f pos bs) q w little = decodeAt f q w little := by
  refine decodeAt_congr little (writeAt_length hin) fun k hk => ?_
  rw [writeAt_get? hin]
  rcases hdisj with h | h
  · rw [if_pos (by omega)]
  · rw [if_neg (by omega), if_neg (by omega)]

theorem map_range_get? (bs : List Nat) :
    ((List.range bs.length).map fun k => (bs.get? k).getD 0) = bs := by
  apply List.ext_get?
  intro n
  rw [List.get?_map]
  by_cases h : n < bs.length
  · rw [List.get?_range h]
    simp [List.get?_eq_get h, List.getElem?_eq_getElem h]
  · rw [List.get?_eq_none.mpr (by simpa using Nat.le_of_not_lt h),
      List.get?_eq_none.mpr (Nat.le_of_not_lt h)]
    rfl

theorem decodeAt_writeAt_self {f bs : List Nat} {pos : Nat} (little : Bool)
    (hin : pos + bs.length ≤ f.length) :
    decodeAt (writeAt f pos bs) pos bs.length little = some (decodeBytes little bs) := by
  unfold decodeAt readAt
  rw [writeAt_length hin, if_pos hin]
  have : ((List.range bs.length).map fun k => ((writeAt f pos bs).get? (pos + k)).getD 0) =
      (List.range bs.length).map fun k => (bs.get? k).getD 0 := by
    refine List.map_congr_left fun k hk => ?_
    have hk' : k < bs.length := List.mem_range.mp hk
    rw [writeAt_get? hin, if_neg (by omega), if_pos (by omega)]
    congr 2
    omega
  rw [this, map_range_get? bs]
  rfl

/-! ### Geometry of program header entries -/

theorem four_le_p_align_offset (p : ElfParams) : 4 ≤ p_align_offset p := by
  unfold p_align_offset
  split <;> omega

theorem p_align_size_pos (p : ElfParams) : 0 < p_align_size p := by
  unfold p_align_size
  split <;> omega

theorem phEntryOff_mono (p : ElfParams) {i j : Nat} (h : i ≤ j) :
    phEntryOff p i ≤ phEntryOff p j := by
  unfold phEntryOff
  have := Nat.mul_le_mul_right p.e_phentsize h
  omega

theorem phEntryOff_step (p : ElfParams) {i j : Nat} (h : i < j) :
    phEntryOff p i + p.e_phentsize ≤ phEntryOff p j := by
  unfold phEntryOff
  have h1 : (i + 1) * p.e_phentsize ≤ j * p.e_phentsize := Nat.mul_le_mul_right _ h
  have h2 : (i + 1) * p.e_phentsize = i * p.e_phentsize + p.e_phentsize := by ring
  omega

/-! ### Invariants of the per-entry loop -/

/-- The loop never changes the length of the file: every write is
preceded by a successful read of the same byte range. -/
theorem alignLoop_length (p : ElfParams) (t : Int) :
    ∀ (c i : Nat) (f : List Nat), ((alignLoop p t i c f).2).length = f.length := by
  intro c
  induction c with
  | zero => intro i f; rfl
  | succ c ih =>
    intro i f
    rcases hpt : decodeAt f (phEntryOff p i) 4 p.little with _ | v
    · simp [alignLoop, hpt]
    · by_cases hv : v = 1
      · rcases hal : decodeAt f (phEntryOff p i + p_align_offset p) (p_align_size p) p.little
          with _ | cur
        · simp [alignLoop, hpt, hv, hal]
        · by_cases hc : (cur : Int) = t
          · simpa [alignLoop, hpt, hv, hal, hc] using ih (i + 1) f
          · rcases hpk : packInt p.little (p_align_size p) t with _ | bs
            · simp [alignLoop, hpt, hv, hal, hc, hpk]
            · have hin : phEntryOff p i + p_align_offset p + bs.length ≤ f.length := by
                have := decodeAt_bound hal
                have := packInt_length hpk
                omega
              have := ih (i + 1) (writeAt f (phEntryOff p i + p_align_offset p) bs)
              simp only [alignLoop, hpt, hv, hal, hc, hpk, if_true, if_false, ite_true,
                ite_false]
              rw [this, writeAt_length hin]
      · simpa [alignLoop, hpt, hv] using ih (i + 1) f

/-- Frame property of the loop: a byte position that lies in no
`p_align` field of the entries still to be processed is never
written. -/
theorem alignLoop_frame (p : ElfParams) (t : Int) :
    ∀ (c i : Nat) (f : List Nat) (q : Nat),
      (∀ j, i ≤ j → j < i + c →
        ¬(phEntryOff p j + p_align_offset p ≤ q ∧
          q < phEntryOff p j + p_align_offset p + p_align_size p)) →
      ((alignLoop p t i c f).2).get? q = f.get? q := by
  intro c
  induction c with
  | zero => intro i f q _; rfl
  | succ c ih =>
    intro i f q hq
    have hq' : ∀ j, i + 1 ≤ j → j < i + 1 + c →
        ¬(phEntryOff p j + p_align_offset p ≤ q ∧
          q < phEntryOff p j + p_align_offset p + p_align_size p) :=
      fun j h1 h2 => hq j (by omega) (by omega)
    rcases hpt : decodeAt f (phEntryOff p i) 4 p.little with _ | v
    · simp [alignLoop, hpt]
    · by_cases hv : v = 1
      · rcases hal : decodeAt f (phEntryOff p i + p_align_offset p) (p_align_size p) p.little
          with _ | cur
        · simp [alignLoop, hpt, hv, hal]
        · by_cases hc : (cur : Int) = t
          · simpa [alignLoop, hpt, hv, hal, hc] using ih (i + 1) f q hq'
          · rcases hpk : packInt p.little (p_align_size p) t with _ | bs
            · simp [alignLoop, hpt, hv, hal, hc, hpk]
            · have hbs : bs.length = p_align_size p := packInt_length hpk
              have hin : phEntryOff p i + p_align_offset p + bs.length ≤ f.length := by
                have := decodeAt_bound hal
                omega
              have hreg := hq i (le_refl i) (by omega)
              have hw : (writeAt f (phEntryOff p i + p_align_offset p) bs).get? q =
                  f.get? q := by
                rw [writeAt_get? hin]
                by_cases h1 : q < phEntryOff p i + p_align_offset p
                · rw [if_pos h1]
                · rw [if_neg h1, if_neg (by omega)]
              have := ih (i + 1) (writeAt f (phEntryOff p i + p_align_offset p) bs) q hq'
              simp only [alignLoop, hpt, hv, hal, hc, hpk, if_true, if_false, ite_true,
                ite_false]
              rw [this, hw]
      · simpa [alignLoop, hpt, hv] using ih (i + 1) f q hq'

/-- Decode-level corollary of the frame property: a field disjoint from
the `p_align` regions of the entries still to be processed decodes to
the same value after the loop. -/
theorem alignLoop_decode_frame (p : ElfParams) (t : Int) (c i : Nat) (f : List Nat)
    (pos w : Nat) (little : Bool)
    (hdisj : ∀ j, i ≤ j → j < i + c →
      pos + w ≤ phEntryOff p j + p_align_offset p ∨
      phEntryOff p j + p_align_offset p + p_align_size p ≤ pos) :
    decodeAt ((alignLoop p t i c f).2) pos w little = decodeAt f pos w little := by
  refine decodeAt_congr little (alignLoop_length p t c i f) fun k hk => ?_
  refine alignLoop_frame p t c i f (pos + k) fun j h1 h2 => ?_
  rcases hdisj j h1 h2 with h | h <;> omega

/-- The `p_type` field of entry `i` is never touched by the processing
of entries `i` and later: their `p_align` regions start at least
`p_align_offset ≥ 4` bytes into entries at equal or larger offsets. -/
theorem ptype_region_disjoint (p : ElfParams) {i j : Nat} (h : i ≤ j) :
    phEntryOff p i + 4 ≤ phEntryOff p j + p_align_offset p := by
  have h4 := four_le_p_align_offset p
  have hm := phEntryOff_mono p h
  omega

/-- When an entry is at least as large as the `p_align` field, the
`p_align` region of entry `i` is disjoint from those of later
entries. -/
theorem align_region_disjoint (p : ElfParams) (hsz : p_align_size p ≤ p.e_phentsize)
    {i j : Nat} (h : i < j) :
    phEntryOff p i + p_align_offset p + p_align_size p ≤
      phEntryOff p j + p_align_offset p := by
  have hst := phEntryOff_step p h
  omega

/-- Exactness invariant: if the loop runs to completion successfully
and entries are at least as wide as the `p_align` field, then every
entry in the processed range whose final `p_type` decodes to 1 has its
final `p_align` decoding to the requested page size. -/
theorem alignLoop_exact (p : ElfParams) (t : Int)
    (hsz : p_align_size p ≤ p.e_phentsize) :
    ∀ (c i : Nat) (f g' : List Nat), alignLoop p t i c f = (true, g') →
      ∀ j, i ≤ j → j < i + c →
        decodeAt g' (phEntryOff p j) 4 p.little = some 1 →
        ∃ v, decodeAt g' (phEntryOff p j + p_align_offset p) (p_align_size p) p.little
              = some v ∧ (v : Int) = t := by
  intro c
  induction c with
  | zero => intro i f g' _ j h1 h2; omega
  | succ c ih =>
    intro i f g' h j h1 h2 hload
    rcases hpt : decodeAt f (phEntryOff p i) 4 p.little with _ | v
    · simp [alignLoop, hpt] at h
    · by_cases hv : v = 1
      · rcases hal : decodeAt f (phEntryOff p i + p_align_offset p) (p_align_size p) p.little
          with _ | cur
        · simp [alignLoop, hpt, hv, hal] at h
        · by_cases hc : (cur : Int) = t
          · simp only [alignLoop, hpt, hv, hal, hc, if_true, if_false, ite_true,
              ite_false] at h
            rcases Nat.eq_or_lt_of_le h1 with rfl | hj
            · have hg' : g' = (alignLoop p t (i + 1) c f).2 := by rw [h]
              refine ⟨cur, ?_, hc⟩
              rw [hg', alignLoop_decode_frame p t c (i + 1) f _ _ p.little
                (fun j' hj1 hj2 => Or.inl (align_region_disjoint p hsz (by omega))), hal]
            · exact ih (i + 1) f g' h j hj (by omega) hload
          · rcases hpk : packInt p.little (p_align_size p) t with _ | bs
            · simp [alignLoop, hpt, hv, hal, hc, hpk] at h
            · have hbs : bs.length = p_align_size p := packInt_length hpk
              simp only [alignLoop, hpt, hv, hal, hc, hpk, if_true, if_false, ite_true,
                ite_false] at h
              rcases Nat.eq_or_lt_of_le h1 with rfl | hj
              · have hg' : g' = (alignLoop p t (i + 1) c
                    (writeAt f (phEntryOff p i + p_align_offset p) bs)).2 := by rw [h]
                obtain ⟨hdec, hnn, hcast⟩ := packInt_decode hpk
                have hin : phEntryOff p i + p_align_offset p + bs.length ≤ f.length := by
                  have := decodeAt_bound hal
                  omega
                refine ⟨t.toNat, ?_, hcast⟩
                rw [hg', alignLoop_decode_frame p t c (i + 1)
                  (writeAt f (phEntryOff p i + p_align_offset p) bs) _ _ p.little
                  (fun j' hj1 hj2 => Or.inl (align_region_disjoint p hsz (by omega)))]
                have := @decodeAt_writeAt_self f bs
                  (phEntryOff p i + p_align_offset p) p.little hin
                rw [hbs] at this
                rw [this, hdec]
              · exact ih (i + 1) _ g' h j hj (by omega) hload
      · simp only [alignLoop, hpt, hv, if_true, if_false, ite_true, ite_false] at h
        rcases Nat.eq_or_lt_of_le h1 with rfl | hj
        · exfalso
          have hg' : g' = (alignLoop p t (i + 1) c f).2 := by rw [h]
          rw [hg', alignLoop_decode_frame p t c (i + 1) f _ _ p.little
            (fun j' hj1 hj2 => Or.inl (ptype_region_disjoint p (by omega))), hpt] at hload
          exact hv (by injection hload)
        · exact ih (i + 1) f g' h j hj (by omega) hload

/-- Local idempotence of the loop: rerunning the loop over the same
entry range on its own output changes nothing and returns the same
flag, provided entries are at least as wide as the `p_align` field. -/
theorem alignLoop_idem (p : ElfParams) (t : Int)
    (hsz : p_align_size p ≤ p.e_phentsize) :
    ∀ (c i : Nat) (f : List Nat) (b : Bool) (g' : List Nat),
      alignLoop p t i c f = (b, g') → alignLoop p t i c g' = (b, g') := by
  intro c
  induction c with
  | zero =>
    intro i f b g' h
    simp only [alignLoop, Prod.mk.injEq] at h
    obtain ⟨hb, hg⟩ := h
    subst hb
    subst hg
    rfl
  | succ c ih =>
    intro i f b g' h
    rcases hpt : decodeAt f (phEntryOff p i) 4 p.little with _ | v
    · simp only [alignLoop, hpt, Prod.mk.injEq] at h
      obtain ⟨hb, hg⟩ := h
      subst hb
      subst hg
      simp [alignLoop, hpt]
    · by_cases hv : v = 1
      · rcases hal : decodeAt f (phEntryOff p i + p_align_offset p) (p_align_size p) p.little
          with _ | cur
        · simp only [alignLoop, hpt, hv, hal, if_true, if_false, ite_true, ite_false,
            Prod.mk.injEq] at h
          obtain ⟨hb, hg⟩ := h
          subst hb
          subst hg
          simp [alignLoop, hpt, hv, hal]
        · by_cases hc : (cur : Int) = t
          · simp only [alignLoop, hpt, hv, hal, hc, if_true, if_false, ite_true,
              ite_false] at h
            have hg' : g' = (alignLoop p t (i + 1) c f).2 := by rw [h]
            have hfr1 : decodeAt g' (phEntryOff p i) 4 p.little = some v := by
              rw [hg', alignLoop_decode_frame p t c (i + 1) f _ _ p.little
                (fun j' hj1 hj2 => Or.inl (ptype_region_disjoint p (by omega))), hpt]
            have hfr2 : decodeAt g' (phEntryOff p i + p_align_offset p) (p_align_size p)
                p.little = some cur := by
              rw [hg', alignLoop_decode_frame p t c (i + 1) f _ _ p.little
                (fun j' hj1 hj2 => Or.inl (align_region_disjoint p hsz (by omega))), hal]
            have hrec := ih (i + 1) f b g' h
            simp only [alignLoop, hfr1, hv, hfr2, hc, if_true, if_false, ite_true,
              ite_false]
            exact hrec
          · rcases hpk : packInt p.little (p_align_size p) t with _ | bs
            · simp only [alignLoop, hpt, hv, hal, hc, hpk, if_true, if_false, ite_true,
                ite_false, Prod.mk.injEq] at h
              obtain ⟨hb, hg⟩ := h
              subst hb
              subst hg
              simp only [alignLoop, hpt, hv, hal, hpk, if_true, if_false, ite_true,
                ite_false]
              rw [if_neg hc]
            · have hbs : bs.length = p_align_size p := packInt_length hpk
              have hin : phEntryOff p i + p_align_offset p + bs.length ≤ f.length := by
                have := decodeAt_bound hal
                omega
              obtain ⟨hdec, hnn, hcast⟩ := packInt_decode hpk
              simp only [alignLoop, hpt, hv, hal, hc, hpk, if_true, if_false, ite_true,
                ite_false] at h
              have hg' : g' = (alignLoop p t (i + 1) c
                  (writeAt f (phEntryOff p i + p_align_offset p) bs)).2 := by rw [h]
              have hfr1 : decodeAt g' (phEntryOff p i) 4 p.little = some v := by
                rw [hg', alignLoop_decode_frame p t c (i + 1) _ _ _ p.little
                  (fun j' hj1 hj2 => Or.inl (ptype_region_disjoint p (by omega))),
                  decodeAt_writeAt_outside p.little hin
                    (Or.inl (by have := four_le_p_align_offset p; omega)), hpt]
              have hfr2 : decodeAt g' (phEntryOff p i + p_align_offset p) (p_align_size p)
                  p.little = some t.toNat := by
                rw [hg', alignLoop_decode_frame p t c (i + 1) _ _ _ p.little
                  (fun j' hj1 hj2 => Or.inl (align_region_disjoint p hsz (by omega)))]
                have hself := @decodeAt_writeAt_self f bs
                  (phEntryOff p i + p_align_offset p) p.little hin
                rw [hbs] at hself
                rw [hself, hdec]
              have hrec := ih (i + 1) _ b g' h
              simp only [alignLoop, hfr1, hv, hfr2, if_true, if_false, ite_true,
                ite_false]
              rw [if_pos hcast]
              exact hrec
      · simp only [alignLoop, hpt, if_neg hv] at h
        have hg' : g' = (alignLoop p t (i + 1) c f).2 := by rw [h]
        have hfr1 : decodeAt g' (phEntryOff p i) 4 p.little = some v := by
          rw [hg', alignLoop_decode_frame p t c (i + 1) f _ _ p.little
            (fun j' hj1 hj2 => Or.inl (ptype_region_disjoint p (by omega))), hpt]
        have hrec := ih (i + 1) f b g' h
        simp only [alignLoop, hfr1]
        rw [if_neg hv]
        exact hrec

theorem opt_bind_fun_none {α β : Type} (x : Option α) :
    (x.bind fun _ => (none : Option β)) = none := by
  cases x <;> rfl

/-- The header parse looks only at bytes 0..57 (the largest offset used
is 56 + 2 for the 64-bit `e_phnum`), so files agreeing there parse
alike. -/
theorem parseElfHeader_congr {g f : List Nat} (hl : g.length = f.length)
    (hpt : ∀ q, q < 58 → g.get? q = f.get? q) :
    parseElfHeader g = parseElfHeader f := by
  have htake : g.take 4 = f.take 4 := by
    apply List.ext_get?
    intro n
    by_cases hn : n < 4
    · rw [List.get?_take hn, List.get?_take hn, hpt n (by omega)]
    · rw [List.get?_eq_none.mpr (by simp [List.length_take]; omega),
        List.get?_eq_none.mpr (by simp [List.length_take]; omega)]
  have h4 : g.get? 4 = f.get? 4 := hpt 4 (by omega)
  have h5 : g.get? 5 = f.get? 5 := hpt 5 (by omega)
  have hdec : ∀ pos w, pos + w ≤ 58 →
      ∀ lit, decodeAt g pos w lit = decodeAt f pos w lit :=
    fun pos w hb lit => decodeAt_congr lit hl fun k hk => hpt (pos + k) (by omega)
  unfold parseElfHeader parsePhFields
  rw [htake, h4, h5]
  simp only [hdec 32 8 (by omega), hdec 54 2 (by omega), hdec 56 2 (by omega),
    hdec 28 4 (by omega), hdec 42 2 (by omega), hdec 44 2 (by omega)]

/-- A file shorter than 46 bytes can never parse: both the 32-bit path
(which needs bytes up to 46) and the 64-bit path (which needs bytes up
to 58) raise on a short header slice. -/
theorem parseElfHeader_none_of_short {f : List Nat} (h : f.length < 46) :
    parseElfHeader f = none := by
  by_cases hm : f.take 4 = elfMagic
  · unfold parseElfHeader
    rw [if_pos hm]
    rcases h4 : f.get? 4 with _ | c4
    · rfl
    · rcases h5 : f.get? 5 with _ | c5
      · rfl
      · show parsePhFields f (c4 == 2) (c5 == 1) = none
        unfold parsePhFields
        by_cases h64 : (c4 == 2) = true
        · rw [if_pos h64]
          rw [decodeAt_none (show f.length < 54 + 2 by omega)]
          simp [opt_bind_fun_none]
        · rw [if_neg h64]
          rw [decodeAt_none (show f.length < 44 + 2 by omega)]
          simp [opt_bind_fun_none]
  · unfold parseElfHeader
    rw [if_neg hm]

/-- Scope invariant of the loop, under non-overlapping entries
(`p_align_offset + p_align_size ≤ e_phentsize`): length is preserved
and every byte outside the `p_align` fields of entries that are
loadable in the original file is untouched. -/
theorem alignLoop_scope (f : List Nat) (p : ElfParams) (t : Int)
    (hsz : p_align_offset p + p_align_size p ≤ p.e_phentsize) :
    ∀ (c i : Nat) (g : List Nat), i + c ≤ p.e_phnum → g.length = f.length →
      (∀ q, ¬ loadAlignRegion f p q → g.get? q = f.get? q) →
      ((alignLoop p t i c g).2.length = f.length ∧
        ∀ q, ¬ loadAlignRegion f p q → (alignLoop p t i c g).2.get? q = f.get? q) := by
  intro c
  induction c with
  | zero => intro i g _ hlen hg; exact ⟨hlen, hg⟩
  | succ c ih =>
    intro i g hin hlen hg
    have hi : i < p.e_phnum := by omega
    have hptq : decodeAt g (phEntryOff p i) 4 p.little =
        decodeAt f (phEntryOff p i) 4 p.little := by
      refine decodeAt_congr p.little hlen fun k hk => hg _ ?_
      rintro ⟨j, hjn, hjload, hj1, hj2⟩
      rcases Nat.lt_or_ge j i with hji | hji
      · have := phEntryOff_step p hji
        omega
      · have := phEntryOff_mono p hji
        have := four_le_p_align_offset p
        omega
    rcases hpt : decodeAt f (phEntryOff p i) 4 p.little with _ | v
    · rw [hpt] at hptq
      simp only [alignLoop, hptq]
      exact ⟨hlen, hg⟩
    · rw [hpt] at hptq
      by_cases hv : v = 1
      · rcases hal : decodeAt g (phEntryOff p i + p_align_offset p) (p_align_size p) p.little
          with _ | cur
        · simp only [alignLoop, hptq, hv, hal, if_true, if_false, ite_true, ite_false]
          exact ⟨hlen, hg⟩
        · by_cases hc : (cur : Int) = t
          · have := ih (i + 1) g (by omega) hlen hg
            simpa [alignLoop, hptq, hv, hal, hc] using this
          · rcases hpk : packInt p.little (p_align_size p) t with _ | bs
            · simp only [alignLoop, hptq, hv, hal, hc, hpk, if_true, if_false, ite_true,
                ite_false]
              exact ⟨hlen, hg⟩
            · have hbs : bs.length = p_align_size p := packInt_length hpk
              have hb : phEntryOff p i + p_align_offset p + bs.length ≤ g.length := by
                have := decodeAt_bound hal
                omega
              have hreg : ∀ q, ¬ loadAlignRegion f p q →
                  (writeAt g (phEntryOff p i + p_align_offset p) bs).get? q = f.get? q := by
                intro q hW
                have hqout : ¬(phEntryOff p i + p_align_offset p ≤ q ∧
                    q < phEntryOff p i + p_align_offset p + p_align_size p) := by
                  intro hq
                  exact hW ⟨i, hi, hv ▸ hpt, hq.1, hq.2⟩
                rw [writeAt_get? hb]
                by_cases h1 : q < phEntryOff p i + p_align_offset p
                · rw [if_pos h1]
                  exact hg q hW
                · rw [if_neg h1, if_neg (by omega)]
                  exact hg q hW
              have hwl : (writeAt g (phEntryOff p i + p_align_offset p) bs).length =
                  f.length := by rw [writeAt_length hb, hlen]
              have := ih (i + 1) (writeAt g (phEntryOff p i + p_align_offset p) bs)
                (by omega) hwl hreg
              simp only [alignLoop, hptq, hv, hal, hpk, if_true, if_false, ite_true,
                ite_false]
              rw [if_neg hc]
              exact this
      · have := ih (i + 1) g (by omega) hlen hg
        simp only [alignLoop, hptq]
        rw [if_neg hv]
        exact this

theorem leVal_lt {bs : List Nat} (hb : ∀ b ∈ bs, b < 256) :
    leVal bs < 256 ^ bs.length := by
  induction bs with
  | nil => simp [leVal]
  | cons b bs ih =>
    have hbb : b < 256 := hb b (by simp)
    have hr : leVal bs < 256 ^ bs.length := ih fun x hx => hb x (by simp [hx])
    have h2 : (256 : Nat) ^ (bs.length + 1) = 256 * 256 ^ bs.length := by ring
    show b + 256 * leVal bs < 256 ^ (bs.length + 1)
    rw [h2]
    calc b + 256 * leVal bs < 256 * (leVal bs + 1) := by omega
      _ ≤ 256 * 256 ^ bs.length := Nat.mul_le_mul_left 256 hr

/-! ### One-step reduction lemmas for the loop -/

theorem alignLoop_step_none {p : ElfParams} {t : Int} {i c : Nat} {f : List Nat}
    (hpt : decodeAt f (phEntryOff p i) 4 p.little = none) :
    alignLoop p t i (c + 1) f = (false, f) := by
  simp [alignLoop, hpt]

theorem alignLoop_step_skip {p : ElfParams} {t : Int} {i c : Nat} {f : List Nat} {v : Nat}
    (hpt : decodeAt f (phEntryOff p i) 4 p.little = some v) (hv : v ≠ 1) :
    alignLoop p t i (c + 1) f = alignLoop p t (i + 1) c f := by
  simp only [alignLoop, hpt]
  rw [if_neg hv]

theorem alignLoop_step_alnone {p : ElfParams} {t : Int} {i c : Nat} {f : List Nat}
    (hpt : decodeAt f (phEntryOff p i) 4 p.little = some 1)
    (hal : decodeAt f (phEntryOff p i + p_align_offset p) (p_align_size p) p.little = none) :
    alignLoop p t i (c + 1) f = (false, f) := by
  simp [alignLoop, hpt, hal]

theorem alignLoop_step_eq {p : ElfParams} {t : Int} {i c : Nat} {f : List Nat} {cur : Nat}
    (hpt : decodeAt f (phEntryOff p i) 4 p.little = some 1)
    (hal : decodeAt f (phEntryOff p i + p_align_offset p) (p_align_size p) p.little
      = some cur)
    (hc : (cur : Int) = t) :
    alignLoop p t i (c + 1) f = alignLoop p t (i + 1) c f := by
  simp [alignLoop, hpt, hal, hc]

theorem alignLoop_step_packnone {p : ElfParams} {t : Int} {i c : Nat} {f : List Nat}
    {cur : Nat}
    (hpt : decodeAt f (phEntryOff p i) 4 p.little = some 1)
    (hal : decodeAt f (phEntryOff p i + p_align_offset p) (p_align_size p) p.little
      = some cur)
    (hc : ¬((cur : Int) = t)) (hpk : packInt p.little (p_align_size p) t = none) :
    alignLoop p t i (c + 1) f = (false, f) := by
  simp [alignLoop, hpt, hal, hc, hpk]

theorem alignLoop_step_write {p : ElfParams} {t : Int} {i c : Nat} {f bs : List Nat}
    {cur : Nat}
    (hpt : decodeAt f (phEntryOff p i) 4 p.little = some 1)
    (hal : decodeAt f (phEntryOff p i + p_align_offset p) (p_align_size p) p.little
      = some cur)
    (hc : ¬((cur : Int) = t)) (hpk : packInt p.little (p_align_size p) t = some bs) :
    alignLoop p t i (c + 1) f =
      alignLoop p t (i + 1) c (writeAt f (phEntryOff p i + p_align_offset p) bs) := by
  simp [alignLoop, hpt, hal, hc, hpk]

/-- If even the 4-byte `p_type` of the last entry to be processed lies
past end of file, the loop cannot finish successfully: every path
either aborts earlier or aborts there. -/
theorem alignLoop_fail_of_short (p : ElfParams) (t : Int) :
    ∀ (c i : Nat) (g : List Nat), 1 ≤ c →
      g.length < phEntryOff p (i + c - 1) + 4 →
      (alignLoop p t i c g).1 = false := by
  intro c
  induction c with
  | zero => intro i g h1 h2; omega
  | succ c ih =>
    intro i g _ hsh
    cases c with
    | zero =>
      have hidx : i + 1 - 1 = i := by omega
      rw [hidx] at hsh
      rw [alignLoop_step_none (decodeAt_none hsh)]
    | succ c' =>
      have hidx : (i + 1) + (c' + 1) - 1 = i + (c' + 1 + 1) - 1 := by omega
      rcases hpt : decodeAt g (phEntryOff p i) 4 p.little with _ | v
      · rw [alignLoop_step_none hpt]
      · by_cases hv : v = 1
        · subst hv
          rcases hal : decodeAt g (phEntryOff p i + p_align_offset p) (p_align_size p)
            p.little with _ | cur
          · rw [alignLoop_step_alnone hpt hal]
          · by_cases hc : (cur : Int) = t
            · rw [alignLoop_step_eq hpt hal hc]
              exact ih (i + 1) g (by omega) (by rw [hidx]; exact hsh)
            · rcases hpk : packInt p.little (p_align_size p) t with _ | bs
              · rw [alignLoop_step_packnone hpt hal hc hpk]
              · rw [alignLoop_step_write hpt hal hc hpk]
                refine ih (i + 1) _ (by omega) ?_
                have hwl : (writeAt g (phEntryOff p i + p_align_offset p) bs).length =
                    g.length := by
                  refine writeAt_length ?_
                  have := decodeAt_bound hal
                  have := packInt_length hpk
                  omega
                rw [hwl, hidx]
                exact hsh
        · rw [alignLoop_step_skip hpt hv]
          exact ih (i + 1) g (by omega) (by rw [hidx]; exact hsh)

/-- If every entry in the range has a readable `p_type` and every
loadable one already has `p_align` decoding to `page_size`, the loop
succeeds without writing anything. -/
theorem alignLoop_noop (p : ElfParams) (t : Int) (f : List Nat) :
    ∀ (c i : Nat),
      (∀ j, i ≤ j → j < i + c →
        decodeAt f (phEntryOff p j) 4 p.little ≠ none ∧
        (decodeAt f (phEntryOff p j) 4 p.little = some 1 →
          (decodeAt f (phEntryOff p j + p_align_offset p) (p_align_size p) p.little).map
            Int.ofNat = some t)) →
      alignLoop p t i c f = (true, f) := by
  intro c
  induction c with
  | zero => intro i _; rfl
  | succ c ih =>
    intro i hj
    obtain ⟨hne, hld⟩ := hj i (le_refl i) (by omega)
    rcases hpt : decodeAt f (phEntryOff p i) 4 p.little with _ | v
    · exact absurd hpt hne
    · by_cases hv : v = 1
      · subst hv
        have hald := hld hpt
        rcases hal : decodeAt f (phEntryOff p i + p_align_offset p) (p_align_size p)
          p.little with _ | cur
        · rw [hal] at hald
          simp at hald
        · rw [hal] at hald
          have hc : (cur : Int) = t := by simpa using hald
          rw [alignLoop_step_eq hpt hal hc]
          exact ih (i + 1) fun j h1 h2 => hj j (by omega) (by omega)
      · rw [alignLoop_step_skip hpt hv]
        exact ih (i + 1) fun j h1 h2 => hj j (by omega) (by omega)

/-- A field decoded from a file of genuine bytes fits in its width. -/
theorem decodeAt_lt {f : List Nat} {pos w : Nat} {little : Bool} {v : Nat}
    (hB : ByteOk f) (h : decodeAt f pos w little = some v) : v < 256 ^ w := by
  have hb : pos + w ≤ f.length := decodeAt_bound h
  unfold decodeAt readAt at h
  rw [if_pos hb] at h
  have hL : decodeBytes little ((List.range w).map fun k => (f.get? (pos + k)).getD 0)
      = v := by
    injection h
  have hLlen : ((List.range w).map fun k => (f.get? (pos + k)).getD 0).length = w := by
    simp
  have hLb : ∀ b ∈ (List.range w).map fun k => (f.get? (pos + k)).getD 0, b < 256 := by
    intro b hbmem
    obtain ⟨k, hk, hbk⟩ := List.mem_map.mp hbmem
    rcases hfk : f.get? (pos + k) with _ | x
    · rw [hfk] at hbk
      simp at hbk
      omega
    · rw [hfk] at hbk
      have := hB x (List.get?_mem hfk)
      simp at hbk
      omega
  rw [← hL]
  unfold decodeBytes
  cases little
  · simp only [if_false, ite_false, Bool.false_eq_true]
    have := @leVal_lt (((List.range w).map fun k => (f.get? (pos + k)).getD 0).reverse)
      (fun b hbm => hLb b (List.mem_reverse.mp hbm))
    rwa [List.length_reverse, hLlen] at this
  · simp only [if_true, ite_true]
    have := leVal_lt hLb
    rwa [hLlen] at this

/-- With a page size that does not fit the `p_align` field (negative,
or at least `256 ^ width`), reaching any loadable entry makes the loop
fail on `struct.pack` without ever writing, and a failed read earlier
also fails; in both cases the file is returned unchanged. -/
theorem alignLoop_fail_unrepresentable (p : ElfParams) (t : Int) (f : List Nat)
    (hB : ByteOk f) (ht : t < 0 ∨ (256 : Int) ^ p_align_size p ≤ t) :
    ∀ (c i : Nat),
      (∃ j, i ≤ j ∧ j < i + c ∧ decodeAt f (phEntryOff p j) 4 p.little = some 1) →
      alignLoop p t i c f = (false, f) := by
  intro c
  induction c with
  | zero => rintro i ⟨j, h1, h2, _⟩; omega
  | succ c ih =>
    rintro i ⟨j, hj1, hj2, hjload⟩
    rcases hpt : decodeAt f (phEntryOff p i) 4 p.little with _ | v
    · exact alignLoop_step_none hpt
    · by_cases hv : v = 1
      · subst hv
        rcases hal : decodeAt f (phEntryOff p i + p_align_offset p) (p_align_size p)
          p.little with _ | cur
        · exact alignLoop_step_alnone hpt hal
        · have hcur := decodeAt_lt hB hal
          have hcast : ((cur : Int)) < (256 : Int) ^ p_align_size p := by
            have h1 : ((cur : Int)) < ((256 ^ p_align_size p : Nat) : Int) := by
              exact_mod_cast hcur
            have h2 : (((256 ^ p_align_size p : Nat)) : Int) = (256 : Int) ^ p_align_size p := by
              push_cast
              ring
            rwa [h2] at h1
          have hc : ¬((cur : Int) = t) := by
            intro he
            rcases ht with h | h
            · omega
            · rw [he] at hcast
              omega
          have hpk : packInt p.little (p_align_size p) t = none := by
            unfold packInt
            rw [if_neg]
            rintro ⟨hg1, hg2⟩
            rcases ht with h | h
            · omega
            · omega
          exact alignLoop_step_packnone hpt hal hc hpk
      · have hji : i + 1 ≤ j := by
          rcases Nat.eq_or_lt_of_le hj1 with rfl | h
          · rw [hpt] at hjload
            have : v = 1 := by injection hjload
            exact absurd this hv
          · omega
        rw [alignLoop_step_skip hpt hv]
        exact ih (i + 1) ⟨j, hji, by omega, hjload⟩

/-! ### The claims -/

/-- Claim C1 is false as stated: `exC1` is an ELF file on which the
operation returns success, yet its program header entry 0 — whose
4-byte `segment_type` field decodes to 1 (loadable) in the final file —
has a final alignment field that does not decode to the requested
16384, because the overlapping entry 1 (`e_phentsize = 4`) was written
over it afterwards. -/
theorem c1_counterexample :
    parseElfHeader exC1 = some ⟨true, true, 64, 4, 2⟩ ∧
    (align_elf_load_segments exC1 16384).1 = true ∧
    decodeAt (align_elf_load_segments exC1 16384).2
      (phEntryOff ⟨true, true, 64, 4, 2⟩ 0) 4 true = some 1 ∧
    decodeAt (align_elf_load_segments exC1 16384).2
      (phEntryOff ⟨true, true, 64, 4, 2⟩ 0 + p_align_offset ⟨true, true, 64, 4, 2⟩)
      (p_align_size ⟨true, true, 64, 4, 2⟩) true ≠ some 16384 := by
  decide

/-- Claim C1, amended: if additionally every program header entry is at
least as wide as its alignment field (`p_align_size ≤ e_phentsize`, so
alignment fields of distinct entries cannot overlap), then after the
operation returns success every entry whose final 4-byte segment_type
field decodes to 1 has its alignment field decoding exactly to the
requested page size. -/
theorem c1_amended_exactness (f : List Nat) (t : Int) (p : ElfParams) (f' : List Nat)
    (hp : parseElfHeader f = some p)
    (hsz : p_align_size p ≤ p.e_phentsize)
    (hrun : align_elf_load_segments f t = (true, f'))
    (i : Nat) (hi : i < p.e_phnum)
    (hload : decodeAt f' (phEntryOff p i) 4 p.little = some 1) :
    ∃ v, decodeAt f' (phEntryOff p i + p_align_offset p) (p_align_size p) p.little
          = some v ∧ (v : Int) = t := by
  unfold align_elf_load_segments at hrun
  rw [hp] at hrun
  exact alignLoop_exact p t hsz p.e_phnum 0 f f' hrun i (by omega) (by omega) hload

/-- Witness for the amended C1 at a well-formed 64-bit file. -/
theorem c1_witness :
    parseElfHeader witC1 = some ⟨true, true, 64, 56, 1⟩ ∧
    (∃ v, decodeAt (align_elf_load_segments witC1 16384).2
        (phEntryOff ⟨true, true, 64, 56, 1⟩ 0 + p_align_offset ⟨true, true, 64, 56, 1⟩)
        (p_align_size ⟨true, true, 64, 56, 1⟩)
        (ElfParams.little ⟨true, true, 64, 56, 1⟩) = some v ∧ (v : Int) = 16384) :=
  ⟨by decide,
    c1_amended_exactness witC1 16384 ⟨true, true, 64, 56, 1⟩
      (align_elf_load_segments witC1 16384).2 (by decide) (by decide) (by decide)
      0 (by decide) (by decide)⟩

/-- Claim C2 is false as stated: on `exC2` (whose entries overlap,
`e_phentsize = 4`) the operation succeeds, entry 1's `segment_type` is
0 (not loadable) both before and after, and yet byte 116 — inside entry
1's alignment field — changes, because it also lies in loadable entry
0's alignment field. -/
theorem c2_counterexample :
    parseElfHeader exC2 = some ⟨true, true, 64, 4, 2⟩ ∧
    (align_elf_load_segments exC2 72340172838076673).1 = true ∧
    decodeAt exC2 (phEntryOff ⟨true, true, 64, 4, 2⟩ 1) 4 true = some 0 ∧
    decodeAt (align_elf_load_segments exC2 72340172838076673).2
      (phEntryOff ⟨true, true, 64, 4, 2⟩ 1) 4 true = some 0 ∧
    (align_elf_load_segments exC2 72340172838076673).2.get?
        (phEntryOff ⟨true, true, 64, 4, 2⟩ 1 + p_align_offset ⟨true, true, 64, 4, 2⟩) ≠
      exC2.get?
        (phEntryOff ⟨true, true, 64, 4, 2⟩ 1 + p_align_offset ⟨true, true, 64, 4, 2⟩) := by
  decide

/-- Claim C2, amended: if additionally the alignment field lies inside
its entry (`p_align_offset + p_align_size ≤ e_phentsize`, the real ELF
layout, which makes entries' fields pairwise disjoint), then for every
page size the file length is unchanged, every byte outside the
alignment fields of entries that are loadable in the original file is
unchanged, and in particular every byte of the alignment field of a
non-loadable entry is unchanged. -/
theorem c2_amended_scope (f : List Nat) (t : Int) (p : ElfParams)
    (hp : parseElfHeader f = some p)
    (hsz : p_align_offset p + p_align_size p ≤ p.e_phentsize) :
    (align_elf_load_segments f t).2.length = f.length ∧
    (∀ q, ¬ loadAlignRegion f p q →
      (align_elf_load_segments f t).2.get? q = f.get? q) ∧
    (∀ j, j < p.e_phnum → decodeAt f (phEntryOff p j) 4 p.little ≠ some 1 →
      ∀ q, phEntryOff p j + p_align_offset p ≤ q →
        q < phEntryOff p j + p_align_offset p + p_align_size p →
        (align_elf_load_segments f t).2.get? q = f.get? q) := by
  unfold align_elf_load_segments
  simp only [hp]
  obtain ⟨hlen, hout⟩ :=
    alignLoop_scope f p t hsz p.e_phnum 0 f (by omega) rfl (fun q _ => rfl)
  refine ⟨hlen, hout, ?_⟩
  intro j hj hnl q h1 h2
  refine hout q ?_
  rintro ⟨j', hj'n, hj'l, hq1, hq2⟩
  rcases Nat.lt_trichotomy j' j with h | h | h
  · have := phEntryOff_step p h
    omega
  · subst h
    exact hnl hj'l
  · have := phEntryOff_step p h
    omega

/-- Witness for the amended C2 at a well-formed 32-bit big-endian
file. -/
theorem c2_witness :
    parseElfHeader witC2 = some ⟨false, false, 64, 32, 1⟩ ∧
    ((align_elf_load_segments witC2 4096).2.length = witC2.length ∧
     (∀ q, ¬ loadAlignRegion witC2 ⟨false, false, 64, 32, 1⟩ q →
       (align_elf_load_segments witC2 4096).2.get? q = witC2.get? q) ∧
     (∀ j, j < ElfParams.e_phnum ⟨false, false, 64, 32, 1⟩ →
       decodeAt witC2 (phEntryOff ⟨false, false, 64, 32, 1⟩ j) 4
         (ElfParams.little ⟨false, false, 64, 32, 1⟩) ≠ some 1 →
       ∀ q, phEntryOff ⟨false, false, 64, 32, 1⟩ j +
           p_align_offset ⟨false, false, 64, 32, 1⟩ ≤ q →
         q < phEntryOff ⟨false, false, 64, 32, 1⟩ j +
           p_align_offset ⟨false, false, 64, 32, 1⟩ +
           p_align_size ⟨false, false, 64, 32, 1⟩ →
         (align_elf_load_segments witC2 4096).2.get? q = witC2.get? q)) :=
  ⟨by decide, c2_amended_scope witC2 4096 ⟨false, false, 64, 32, 1⟩ (by decide) (by decide)⟩

/-- Claim C3, confirmed: a file whose first 4 bytes are not the ELF
magic makes the operation fail with the file unchanged. -/
theorem c3_rejects_non_elf (f : List Nat) (t : Int) (h : f.take 4 ≠ elfMagic) :
    align_elf_load_segments f t = (false, f) := by
  unfold align_elf_load_segments parseElfHeader
  rw [if_neg h]

/-- Witness for C3. -/
theorem c3_witness :
    witC3.take 4 ≠ elfMagic ∧ align_elf_load_segments witC3 16384 = (false, witC3) :=
  ⟨by decide, c3_rejects_non_elf witC3 16384 (by decide)⟩

/-- Claim C4 is false as stated: on `exC4` the program header table
overlaps the ELF header itself, so the first run rewrites the header's
`e_phentsize`/`e_phnum` fields while aligning entry 0; the second run
therefore sees a two-entry table and writes a second field, so the file
after the second run differs from the file after the first. -/
theorem c4_counterexample :
    (align_elf_load_segments exC4 131128).1 = true ∧
    (align_elf_load_segments (align_elf_load_segments exC4 131128).2 131128).2 ≠
      (align_elf_load_segments exC4 131128).2 := by
  decide

/-- Claim C4, amended: the operation is idempotent provided the program
header table starts at or after byte 64 (does not overlap the ELF
header) and each entry is at least as wide as the alignment field; the
second run then returns the same flag and leaves the file of the first
run unchanged. -/
theorem c4_amended_idempotent (f : List Nat) (t : Int) (p : ElfParams) (b : Bool)
    (f' : List Nat)
    (hp : parseElfHeader f = some p)
    (hoff : 64 ≤ p.e_phoff)
    (hsz : p_align_size p ≤ p.e_phentsize)
    (hrun : align_elf_load_segments f t = (b, f')) :
    align_elf_load_segments f' t = (b, f') := by
  unfold align_elf_load_segments at hrun ⊢
  simp only [hp] at hrun
  have hf' : f' = (alignLoop p t 0 p.e_phnum f).2 := by rw [hrun]
  have hlen : f'.length = f.length := by
    rw [hf']
    exact alignLoop_length p t p.e_phnum 0 f
  have hhead : ∀ q, q < 58 → f'.get? q = f.get? q := by
    intro q hq
    rw [hf']
    refine alignLoop_frame p t p.e_phnum 0 f q fun j h1 h2 => ?_
    have h28 : 28 ≤ p_align_offset p := by
      unfold p_align_offset
      split <;> omega
    have hoffj : p.e_phoff ≤ phEntryOff p j := by
      unfold phEntryOff
      omega
    rintro ⟨hc1, _⟩
    omega
  have hparse : parseElfHeader f' = some p := by
    rw [parseElfHeader_congr hlen hhead, hp]
  simp only [hparse]
  exact alignLoop_idem p t hsz p.e_phnum 0 f b f' hrun

/-- Witness for the amended C4. -/
theorem c4_witness :
    parseElfHeader witC4 = some ⟨true, true, 64, 56, 1⟩ ∧
    align_elf_load_segments (align_elf_load_segments witC4 16384).2 16384 =
      (true, (align_elf_load_segments witC4 16384).2) :=
  ⟨by decide,
    c4_amended_idempotent witC4 16384 ⟨true, true, 64, 56, 1⟩ true
      (align_elf_load_segments witC4 16384).2 (by decide) (by decide) (by decide)
      (by decide)⟩

/-- Claim C5 is false as stated: `exC5` parses to a table descriptor
with `e_phoff + e_phnum * e_phentsize = 120`, far past its 68-byte end
of file, yet the operation succeeds (the only bytes it actually reads
are in bounds), silently tolerating the truncated table. -/
theorem c5_counterexample :
    parseElfHeader exC5 = some ⟨true, true, 64, 56, 1⟩ ∧
    exC5.length = 68 ∧
    ElfParams.e_phoff ⟨true, true, 64, 56, 1⟩ +
      ElfParams.e_phnum ⟨true, true, 64, 56, 1⟩ *
        ElfParams.e_phentsize ⟨true, true, 64, 56, 1⟩ = 120 ∧
    align_elf_load_segments exC5 16384 = (true, exC5) := by
  decide

/-- Claim C5, amended: the operation fails only when a read it actually
performs runs past end of file; in particular, whenever even the 4-byte
segment_type of the last entry lies past end of file
(`phEntryOff (e_phnum - 1) + 4 > file length`, `e_phnum ≥ 1`), every
path aborts and the operation reports failure. A table that merely
extends past end of file while all bytes actually read are in bounds is
tolerated with success (see the counterexample). -/
theorem c5_amended_truncated (f : List Nat) (t : Int) (p : ElfParams)
    (hp : parseElfHeader f = some p) (hn : 1 ≤ p.e_phnum)
    (hsh : f.length < phEntryOff p (p.e_phnum - 1) + 4) :
    (align_elf_load_segments f t).1 = false := by
  unfold align_elf_load_segments
  simp only [hp]
  refine alignLoop_fail_of_short p t p.e_phnum 0 f hn ?_
  simpa using hsh

/-- Witness for the amended C5: a 64-byte header announcing one entry
with no bytes behind it. -/
theorem c5_witness :
    parseElfHeader witC5 = some ⟨true, true, 64, 56, 1⟩ ∧
    witC5.length < phEntryOff ⟨true, true, 64, 56, 1⟩ (1 - 1) + 4 ∧
    (align_elf_load_segments witC5 16384).1 = false :=
  ⟨by decide, by decide,
    c5_amended_truncated witC5 16384 ⟨true, true, 64, 56, 1⟩ (by decide) (by decide)
      (by decide)⟩

/-- Claim C6 is false as stated: `exC6` has valid magic but class byte
7 and byte-order byte 9, neither of which is recognized, and the
operation does not reject it — it succeeds, treating the file as 32-bit
big-endian. -/
theorem c6_counterexample :
    exC6.take 4 = elfMagic ∧
    exC6.get? 4 = some 7 ∧ exC6.get? 5 = some 9 ∧
    align_elf_load_segments exC6 16384 = (true, exC6) := by
  decide

/-- Claim C6, amended: a file with valid magic whose class byte is not
2 and whose byte-order byte is not 1 is not rejected; the parse
proceeds under the default interpretation, treating it exactly as a
32-bit big-endian file. -/
theorem c6_amended_default_interpretation (f : List Nat) (c4v c5v : Nat)
    (hm : f.take 4 = elfMagic) (h4 : f.get? 4 = some c4v) (h5 : f.get? 5 = some c5v)
    (hc : c4v ≠ 2) (hd : c5v ≠ 1) :
    parseElfHeader f = parsePhFields f false false := by
  unfold parseElfHeader
  rw [if_pos hm, h4, h5]
  have hb4 : (c4v == 2) = false := by
    simp [hc]
  have hb5 : (c5v == 1) = false := by
    simp [hd]
  show parsePhFields f (c4v == 2) (c5v == 1) = parsePhFields f false false
  rw [hb4, hb5]

/-- Witness for the amended C6. -/
theorem c6_witness :
    witC6.get? 4 = some 3 ∧ witC6.get? 5 = some 3 ∧
    parseElfHeader witC6 = parsePhFields witC6 false false :=
  ⟨by decide, by decide,
    c6_amended_default_interpretation witC6 3 3 (by decide) (by decide) (by decide)
      (by decide) (by decide)⟩

/-- Claim C7 is false as stated: `exC7` is 58 bytes long — shorter than
64 — yet the operation succeeds (its header fields all decode within 58
bytes and `e_phnum = 0`), leaving the file unchanged. -/
theorem c7_counterexample :
    exC7.length = 58 ∧
    align_elf_load_segments exC7 16384 = (true, exC7) := by
  decide

/-- Claim C7, amended: a file of length zero, or shorter than 46 bytes,
always fails with the file unchanged (no write attempted): below 46
bytes neither the 32-bit path (fields up to byte 46) nor the 64-bit
path (fields up to byte 58) can decode its header. Files of 46 to 63
bytes can succeed (see the counterexample). -/
theorem c7_amended_short_rejected (f : List Nat) (t : Int) (h : f.length < 46) :
    align_elf_load_segments f t = (false, f) := by
  unfold align_elf_load_segments
  simp only [parseElfHeader_none_of_short h]

/-- Witness for the amended C7. -/
theorem c7_witness :
    witC7.length < 46 ∧ align_elf_load_segments witC7 16384 = (false, witC7) :=
  ⟨by decide, c7_amended_short_rejected witC7 16384 (by decide)⟩

/-- Claim C8, confirmed: on a structurally parseable file — the header
parses, every entry's `p_type` is readable, and every loadable entry's
alignment field decodes to the target — the operation returns success
with the file byte-for-byte unchanged (no write occurs). -/
theorem c8_already_aligned (f : List Nat) (t : Int) (p : ElfParams)
    (hp : parseElfHeader f = some p)
    (hall : ∀ j, j < p.e_phnum →
      decodeAt f (phEntryOff p j) 4 p.little ≠ none ∧
      (decodeAt f (phEntryOff p j) 4 p.little = some 1 →
        (decodeAt f (phEntryOff p j + p_align_offset p) (p_align_size p) p.little).map
          Int.ofNat = some t)) :
    align_elf_load_segments f t = (true, f) := by
  unfold align_elf_load_segments
  simp only [hp]
  exact alignLoop_noop p t f p.e_phnum 0 fun j h1 h2 => hall j (by omega)

/-- Witness for C8: a file whose single loadable entry already has
`p_align = 16384`. -/
theorem c8_witness :
    parseElfHeader witC8 = some ⟨true, true, 64, 56, 1⟩ ∧
    align_elf_load_segments witC8 16384 = (true, witC8) :=
  ⟨by decide,
    c8_already_aligned witC8 16384 ⟨true, true, 64, 56, 1⟩ (by decide) (by decide)⟩

/-- Claim C9, confirmed: if the page size is not representable in the
alignment field's width (negative, or at least `256 ^ width`, that is
`2 ^ 32` for 32-bit and `2 ^ 64` for 64-bit), then on any parseable
file of genuine bytes that contains a loadable entry the operation
fails and returns the file unchanged: `struct.pack` raises before any
byte is written. -/
theorem c9_unrepresentable_page_size (f : List Nat) (t : Int) (p : ElfParams)
    (hp : parseElfHeader f = some p) (hB : ByteOk f)
    (ht : t < 0 ∨ (256 : Int) ^ p_align_size p ≤ t)
    (hload : ∃ i, i < p.e_phnum ∧ decodeAt f (phEntryOff p i) 4 p.little = some 1) :
    align_elf_load_segments f t = (false, f) := by
  unfold align_elf_load_segments
  simp only [hp]
  obtain ⟨i, hi, hl⟩ := hload
  exact alignLoop_fail_unrepresentable p t f hB ht p.e_phnum 0 ⟨i, by omega, by omega, hl⟩

/-- Witness for C9 with the negative page size -1. -/
theorem c9_witness :
    parseElfHeader witC9 = some ⟨true, true, 64, 56, 1⟩ ∧
    align_elf_load_segments witC9 (-1) = (false, witC9) :=
  ⟨by decide,
    c9_unrepresentable_page_size witC9 (-1) ⟨true, true, 64, 56, 1⟩ (by decide)
      (by unfold ByteOk; decide) (Or.inl (by decide)) (by decide)⟩

/-- Claim C10, confirmed: the operation is a pure function of the
initial file bytes and the page-size parameter — two runs on equal
inputs produce equal outcome flags and equal final bytes. -/
theorem c10_deterministic (f1 f2 : List Nat) (t1 t2 : Int) (hf : f1 = f2)
    (ht : t1 = t2) :
    align_elf_load_segments f1 t1 = align_elf_load_segments f2 t2 := by
  rw [hf, ht]

/-- Witness for C10. -/
theorem c10_witness :
    align_elf_load_segments [0x7f, 0x45, 0x4c, 0x46] 16384 =
      align_elf_load_segments [0x7f, 0x45, 0x4c, 0x46] 16384 :=
  c10_deterministic [0x7f, 0x45, 0x4c, 0x46] [0x7f, 0x45, 0x4c, 0x46] 16384 16384 rfl rfl
